import Mathlib

/-!
Verification development for `pykafka/cluster.py`.

The `Cluster` class keeps a client-side view of a Kafka cluster: a map from
broker id to broker handle, a map from topic name to topic handle, a metadata
fetch (`_get_metadata`), reconciliation of the two maps against a fresh
snapshot (`_update_brokers`, `_update_topics`, `_should_exclude_topic`), and a
retrying coordinator lookup (`get_offset_manager`).

Python dicts are embedded as association lists (`List (k × v)`); dict
assignment replaces an existing binding in place and appends a fresh one.
Handles (`Broker`, `Topic`) carry an allocation `tag` standing for Python
object identity: each construction draws a fresh tag, so "the same handle
object" is expressible as equality of tagged values.  Network effects
(`request_metadata`, the coordinator request, `random.choice`) are oracles
passed in as functions.
-/

namespace Pykafka

/-! ### Association lists standing for Python dicts -/

/-- Dict lookup: first binding for the key, if any. -/
def findA {α β : Type} [DecidableEq α] (k : α) : List (α × β) → Option β
  | [] => none
  | (k1, v) :: rest => if k = k1 then some v else findA k rest

/-- Dict assignment `d[k] = v`: replace the binding in place if present,
append otherwise. -/
def setA {α β : Type} [DecidableEq α] (k : α) (v : β) : List (α × β) → List (α × β)
  | [] => [(k, v)]
  | (k1, v1) :: rest => if k1 = k then (k, v) :: rest else (k1, v1) :: setA k v rest

theorem findA_setA_self {α β : Type} [DecidableEq α] (k : α) (v : β) (m : List (α × β)) :
    findA k (setA k v m) = some v := by
  induction m with
  | nil => simp [setA, findA]
  | cons p rest ih =>
    obtain ⟨k1, v1⟩ := p
    by_cases h : k1 = k
    · simp [setA, h, findA]
    · have h1 : k ≠ k1 := fun he => h he.symm
      simp [setA, h, findA, h1, ih]

theorem findA_setA_of_ne {α β : Type} [DecidableEq α] {k k1 : α} (v : β) (m : List (α × β))
    (h : k1 ≠ k) : findA k1 (setA k v m) = findA k1 m := by
  induction m with
  | nil => simp [setA, findA, h]
  | cons p rest ih =>
    obtain ⟨k2, v2⟩ := p
    by_cases h2 : k2 = k
    · subst h2
      simp [setA, findA, h, ih]
    · by_cases h3 : k1 = k2 <;> simp [setA, h2, findA, h3, ih]

theorem setA_self_of_findA {α β : Type} [DecidableEq α] {k : α} {v : β} {m : List (α × β)}
    (h : findA k m = some v) : setA k v m = m := by
  induction m with
  | nil => simp [findA] at h
  | cons p rest ih =>
    obtain ⟨k1, v1⟩ := p
    by_cases h1 : k = k1
    · subst h1
      simp [findA] at h
      simp [setA, h]
    · simp [findA, h1] at h
      have h2 : ¬k1 = k := fun he => h1 he.symm
      simp [setA, h2, ih h]

theorem mem_of_setA {α β : Type} [DecidableEq α] {k k1 : α} {v v1 : β} {m : List (α × β)}
    (h : (k1, v1) ∈ setA k v m) : (k1 = k ∧ v1 = v) ∨ (k1, v1) ∈ m := by
  induction m with
  | nil =>
    simp [setA] at h
    exact Or.inl h
  | cons p rest ih =>
    obtain ⟨k2, v2⟩ := p
    by_cases h2 : k2 = k
    · subst h2
      simp [setA] at h
      rcases h with h | h
      · exact Or.inl h
      · exact Or.inr (List.mem_cons_of_mem _ h)
    · simp [setA, h2] at h
      rcases h with h | h
      · exact Or.inr (by simp [h])
      · rcases ih h with h3 | h3
        · exact Or.inl h3
        · exact Or.inr (List.mem_cons_of_mem _ h3)

theorem mem_of_findA {α β : Type} [DecidableEq α] {k : α} {v : β} {m : List (α × β)}
    (h : findA k m = some v) : (k, v) ∈ m := by
  induction m with
  | nil => simp [findA] at h
  | cons p rest ih =>
    obtain ⟨k1, v1⟩ := p
    by_cases h1 : k = k1
    · subst h1
      simp [findA] at h
      simp [h]
    · simp [findA, h1] at h
      exact List.mem_cons_of_mem _ (ih h)

theorem findA_isSome_of_mem {α β : Type} [DecidableEq α] {k : α} {v : β} {m : List (α × β)}
    (h : (k, v) ∈ m) : (findA k m).isSome := by
  induction m with
  | nil => simp at h
  | cons p rest ih =>
    obtain ⟨k1, v1⟩ := p
    rcases List.mem_cons.mp h with h1 | h1
    · cases h1
      simp [findA]
    · by_cases h2 : k = k1
      · simp [findA, h2]
      · simp [findA, h2]
        exact ih h1

theorem findA_isSome_of_mem_keys {α β : Type} [DecidableEq α] {k : α} {m : List (α × β)}
    (h : k ∈ m.map Prod.fst) : (findA k m).isSome := by
  rcases List.mem_map.mp h with ⟨⟨k1, v1⟩, hm, hk⟩
  exact hk ▸ findA_isSome_of_mem hm

theorem not_mem_keys_of_findA_none {α β : Type} [DecidableEq α] {k : α} {m : List (α × β)}
    (h : findA k m = none) : k ∉ m.map Prod.fst := by
  intro hmem
  have := findA_isSome_of_mem_keys hmem
  simp [h] at this

theorem findA_eq_of_mem_nodup {α β : Type} [DecidableEq α] {k : α} {v : β} {m : List (α × β)}
    (hnd : (m.map Prod.fst).Nodup) (h : (k, v) ∈ m) : findA k m = some v := by
  induction m with
  | nil => simp at h
  | cons p rest ih =>
    obtain ⟨k1, v1⟩ := p
    rw [List.map_cons, List.nodup_cons] at hnd
    rcases List.mem_cons.mp h with h1 | h1
    · cases h1
      simp [findA]
    · have hne : k ≠ k1 := by
        intro he
        subst he
        exact hnd.1 (List.mem_map.mpr ⟨(k, v), h1, rfl⟩)
      simp [findA, hne]
      exact ih hnd.2 h1

theorem findA_filter_pos {α β : Type} [DecidableEq α] (k : α) (m : List (α × β))
    (pred : α → Bool) (h : pred k = true) :
    findA k (m.filter fun p => pred p.1) = findA k m := by
  induction m with
  | nil => simp
  | cons p rest ih =>
    obtain ⟨k1, v1⟩ := p
    by_cases h1 : k = k1
    · subst h1
      simp [List.filter, h, findA, ih]
    · by_cases h2 : pred k1 <;> simp [List.filter, h2, findA, h1, ih]

theorem findA_filter_neg {α β : Type} [DecidableEq α] (k : α) (m : List (α × β))
    (pred : α → Bool) (h : pred k = false) :
    findA k (m.filter fun p => pred p.1) = none := by
  induction m with
  | nil => simp [findA]
  | cons p rest ih =>
    obtain ⟨k1, v1⟩ := p
    by_cases h1 : k = k1
    · subst h1
      simp [List.filter, h, ih]
    · by_cases h2 : pred k1 <;> simp [List.filter, h2, findA, h1, ih]

/-! ### Data model -/

/-- Broker metadata from a topology snapshot (`protocol.BrokerMetadata`):
an id together with the broker's address.  Ports are kept as strings: the
reconciliation code only ever compares them for equality. -/
structure BrokerMeta where
  id : Int
  host : String
  port : String
deriving DecidableEq

/-- Modelled from the spec: `broker.py` is not under `src/`.  A Broker handle
is "constructible from `(id, host, port, driver, timeouts, buffer_size)` or
from metadata via a factory; exposes `host`, `port`" (spec section 6).  The
`tag` field stands for Python object identity: every construction draws a
fresh tag. -/
structure Broker where
  id : Int
  host : String
  port : String
  tag : Nat
deriving DecidableEq

/-- Modelled from the spec: the factory `Broker.from_metadata` builds a handle
whose identity and address come from the metadata record. -/
def Broker.fromMetadata (meta : BrokerMeta) (tag : Nat) : Broker :=
  ⟨meta.id, meta.host, meta.port, tag⟩

/-- Topic metadata from a topology snapshot (`protocol.TopicMetadata`); its
partition payload is opaque to `cluster.py`, so it is a bare token here. -/
structure TopicMeta where
  payload : Nat
deriving DecidableEq

/-- Modelled from the spec: `topic.py` is not under `src/`.  A Topic handle is
"constructible from `(cluster, metadata)`; exposes `update(metadata)`" (spec
section 6).  The `tag` stands for object identity and `meta` for the latest
metadata applied. -/
structure Topic where
  tag : Nat
  meta : TopicMeta
deriving DecidableEq

/-- Modelled from the spec: `Topic.update(meta)` reconciles the handle in
place, so object identity (`tag`) is preserved. -/
def Topic.updateMeta (t : Topic) (meta : TopicMeta) : Topic :=
  ⟨t.tag, meta⟩

/-- A topology snapshot as returned by `request_metadata()`: broker and topic
metadata keyed by id and name. -/
structure Metadata where
  brokers : List (Int × BrokerMeta)
  topics : List (String × TopicMeta)
deriving DecidableEq

/-- The cluster state: the `_brokers` and `_topics` dicts, the
`_exclude_internal_topics` flag, and the allocation counter that hands fresh
identity tags to newly constructed handles. -/
structure Cluster where
  brokers : List (Int × Broker)
  topics : List (String × Topic)
  excludeInternalTopics : Bool
  freshTag : Nat
deriving DecidableEq

/-- A freshly constructed cluster before its first refresh: both maps empty
(`__init__` populates them by calling `update()` immediately). -/
def Cluster.init (excludeInternalTopics : Bool) : Cluster :=
  ⟨[], [], excludeInternalTopics, 0⟩

/-! ### Broker reconciliation (`_update_brokers`) -/

/-- The add/update phase of `_update_brokers`: iterate the snapshot entries in
order; an unknown id gets a fresh handle built from its metadata; a known id
whose host and port are unchanged is left alone; a known id with a changed
address raises (`'Broker host/port change detected!'`).  The result carries
the dict as mutated so far, the allocation counter, and `some id` when the
exception was raised at `id`. -/
def updateBrokersLoop : List (Int × BrokerMeta) → List (Int × Broker) → Nat →
    List (Int × Broker) × Nat × Option Int
  | [], m, tag => (m, tag, none)
  | (id, meta) :: rest, m, tag =>
    match findA id m with
    | none => updateBrokersLoop rest (setA id (Broker.fromMetadata meta tag) m) (tag + 1)
    | some b =>
      if meta.host = b.host ∧ meta.port = b.port then
        updateBrokersLoop rest m tag
      else
        (m, tag, some id)

/-- `_update_brokers`: first evict every id absent from the snapshot
(`removed = set(self._brokers.keys()) - set(broker_metadata.keys())`), then
run the add/update loop over the snapshot. -/
def updateBrokers (brokers : List (Int × Broker)) (bmeta : List (Int × BrokerMeta))
    (tag : Nat) : List (Int × Broker) × Nat × Option Int :=
  updateBrokersLoop bmeta (brokers.filter fun p => (findA p.1 bmeta).isSome) tag

/-! ### Topic reconciliation (`_update_topics`, `_should_exclude_topic`) -/

/-- Python `name.startswith(pat)` on the underlying character lists. -/
def startsWithChars : List Char → List Char → Bool
  | [], _ => true
  | _ :: _, [] => false
  | p :: ps, c :: cs => p = c && startsWithChars ps cs

/-- `topic_name.startswith("__")`. -/
def pyStartsWith (pat s : String) : Bool :=
  startsWithChars pat.toList s.toList

/-- `_should_exclude_topic`: nothing is excluded when the flag is off;
otherwise exactly the names starting with the reserved double underscore. -/
def shouldExcludeTopic (excludeInternalTopics : Bool) (topicName : String) : Bool :=
  if !excludeInternalTopics then false
  else pyStartsWith "__" topicName

/-- The add/update phase of `_update_topics`: excluded names are skipped
entirely; an unknown name gets a fresh `Topic(self, meta)` handle; a known
name is updated in place via `topic.update(meta)`. -/
def updateTopicsLoop (ex : Bool) : List (String × TopicMeta) → List (String × Topic) → Nat →
    List (String × Topic) × Nat
  | [], m, tag => (m, tag)
  | (name, meta) :: rest, m, tag =>
    if shouldExcludeTopic ex name then
      updateTopicsLoop ex rest m tag
    else
      match findA name m with
      | none => updateTopicsLoop ex rest (setA name (Topic.mk tag meta) m) (tag + 1)
      | some t => updateTopicsLoop ex rest (setA name (t.updateMeta meta) m) tag

/-- `_update_topics`: evict every name absent from the snapshot, then run the
add/update loop over the snapshot. -/
def updateTopics (ex : Bool) (topics : List (String × Topic))
    (tmeta : List (String × TopicMeta)) (tag : Nat) : List (String × Topic) × Nat :=
  updateTopicsLoop ex tmeta (topics.filter fun p => (findA p.1 tmeta).isSome) tag

/-! ### The `update()` refresh cycle -/

/-- The errors `update()` can surface, named as in the spec's taxonomy.
`topologyChangeRejected id` is the `'Broker host/port change detected!'`
exception raised while reconciling broker `id`. -/
inductive ClusterErr
  | topologyChangeRejected (id : Int)
deriving DecidableEq

/-- `update()` applied to the snapshot the metadata fetch returned: reconcile
brokers, then (only if that did not raise) reconcile topics.  When broker
reconciliation raises, the broker map keeps its partially reconciled contents
and the topic map is untouched (no rollback, spec section 7). -/
def Cluster.update (c : Cluster) (md : Metadata) : Cluster × Option ClusterErr :=
  let rb := updateBrokers c.brokers md.brokers c.freshTag
  match rb.2.2 with
  | some i =>
    ({ c with brokers := rb.1, freshTag := rb.2.1 },
      some (ClusterErr.topologyChangeRejected i))
  | none =>
    let rt := updateTopics c.excludeInternalTopics c.topics md.topics rb.2.1
    ({ c with brokers := rb.1, topics := rt.1, freshTag := rt.2 }, none)

/-- A sequence of `update()` calls, one per fetched snapshot; a raised
exception propagates to the caller, who may keep calling `update()` on the
state left behind. -/
def Cluster.updateSeq (c : Cluster) : List Metadata → Cluster
  | [] => c
  | md :: rest => ((c.update md).1).updateSeq rest

/-! ### Metadata fetch (`_get_metadata`) -/

/-- Python `s.split(sep)` for a one-character separator: splitting never
yields an empty list — the empty string splits to `[""]`. -/
def pySplitChars (sep : Char) : List Char → List (List Char)
  | [] => [[]]
  | c :: cs =>
    match pySplitChars sep cs with
    | [] => [[c]]
    | g :: gs => if c = sep then [] :: g :: gs else (c :: g) :: gs

/-- `self._seed_hosts.split(',')`. -/
def pySplitComma (s : String) : List String :=
  (pySplitChars ',' s.toList).map fun cs => String.mk cs

/-- What `_get_metadata` can raise: the re-raised connection failure from the
single candidate it tries, the `ValueError` from unpacking `h, p =
broker.split(':')` on a malformed seed, or — after an empty candidate list —
`'Unable to connect to a broker to fetch metadata.'` (the spec's
`ClusterUnreachable`). -/
inductive FetchErr
  | connectError (host port : String)
  | seedParseError (seed : String)
  | clusterUnreachable
deriving DecidableEq

/-- A fetch candidate: an already known broker handle, or one `host:port`
entry of the seed list still to be parsed. -/
inductive Candidate
  | known (b : Broker)
  | seed (s : String)
deriving DecidableEq

/-- Candidate selection in `_get_metadata`: the current broker handles if any
are known, otherwise the comma-split seed string. -/
def candidatesOf (brokers : List (Int × Broker)) (seedHosts : String) : List Candidate :=
  if brokers.isEmpty then (pySplitComma seedHosts).map Candidate.seed
  else brokers.map fun p => Candidate.known p.2

/-- One iteration of the candidate loop.  A seed string is split at `:` and
wrapped in a temporary `Broker(-1, h, p, ...)`; `request_metadata()` is the
`respond` oracle, `none` standing for a raised connection error, which the
`except` clause logs and re-raises. -/
def tryCandidate (respond : Broker → Option Metadata) (tmpTag : Nat) :
    Candidate → Except FetchErr Metadata
  | Candidate.known b =>
    match respond b with
    | some md => Except.ok md
    | none => Except.error (FetchErr.connectError b.host b.port)
  | Candidate.seed s =>
    match pySplitChars ':' s.toList with
    | [h, p] =>
      match respond (Broker.mk (-1) (String.mk h) (String.mk p) tmpTag) with
      | some md => Except.ok md
      | none => Except.error (FetchErr.connectError (String.mk h) (String.mk p))
    | _ => Except.error (FetchErr.seedParseError s)

/-- The candidate loop of `_get_metadata`.  Each iteration either returns the
metadata or re-raises its failure, so candidates after the first are never
consulted; the closing raise is reached only on an empty candidate list. -/
def fetchLoop (respond : Broker → Option Metadata) (tmpTag : Nat) :
    List Candidate → Except FetchErr Metadata
  | [] => Except.error FetchErr.clusterUnreachable
  | c :: _ => tryCandidate respond tmpTag c

/-- `_get_metadata`. -/
def getMetadata (brokers : List (Int × Broker)) (seedHosts : String)
    (respond : Broker → Option Metadata) (tmpTag : Nat) : Except FetchErr Metadata :=
  fetchLoop respond tmpTag (candidatesOf brokers seedHosts)

/-! ### Coordinator discovery (`get_offset_manager`) -/

/-- The outcome the coordinator-metadata request oracle reports for one
attempt: a raised error (carrying an opaque token for the exception) or a
response carrying `coordinator_id`. -/
inductive QueryOutcome
  | fail (err : Nat)
  | success (coordinatorId : Int)
deriving DecidableEq

/-- How a `get_offset_manager` call ends.  `discoveryFailed err` is the bare
`raise` re-raising the last attempt's failure (the spec's
`CoordinatorDiscoveryFailed`); `coordinatorUnknown` is `'Coordinator broker
with id ... not found'`; `choiceFromEmpty` is the `IndexError` that
`random.choice` raises on an empty sequence. -/
inductive GomResult
  | returned (b : Broker)
  | coordinatorUnknown (coordinatorId : Int)
  | discoveryFailed (err : Nat)
  | choiceFromEmpty
deriving DecidableEq

/-- One `get_offset_manager` run, observably: the broker id targeted by each
query attempt, the sleep durations in order, and the final outcome. -/
structure GomTrace where
  targets : List Int
  sleeps : List Nat
  result : GomResult
deriving DecidableEq

/-- Prepend one attempt's target and one sleep to a trace. -/
def consTrace (target : Int) (sleep : Nat) (tr : GomTrace) : GomTrace :=
  ⟨target :: tr.targets, sleep :: tr.sleeps, tr.result⟩

/-- `MAX_RETRIES` in `get_offset_manager`. -/
def MAX_RETRIES : Nat := 3

/-- The success path of an attempt: `self.brokers.get(res.coordinator_id,
None)`, returning the stored handle or raising when the id is unknown. -/
def lookupResult (brokers : List (Int × Broker)) (coordinatorId : Int) : GomResult :=
  match findA coordinatorId brokers with
  | some co => GomResult.returned co
  | none => GomResult.coordinatorUnknown coordinatorId

/-- The `while True` loop of `get_offset_manager`.  `retries` counts completed
attempts; the current attempt consults `outcome retries`.  On failure with
`retries + 1 < MAX_RETRIES` the loop sleeps for `backoff` seconds, squares the
backoff (`backoff = backoff ** 2`) and retries **with the same broker**; after
the last attempt it re-raises.  The fuel argument only bounds the recursion:
the loop body runs at most `MAX_RETRIES` times, so fuel `MAX_RETRIES` is never
exhausted. -/
def gomLoop (brokers : List (Int × Broker)) (chosen : Broker)
    (outcome : Nat → QueryOutcome) : Nat → Nat → Nat → GomTrace
  | 0, _, _ => ⟨[], [], GomResult.discoveryFailed 0⟩
  | fuel + 1, retries, backoff =>
    match outcome retries with
    | QueryOutcome.success cid => ⟨[chosen.id], [], lookupResult brokers cid⟩
    | QueryOutcome.fail err =>
      if retries + 1 < MAX_RETRIES then
        consTrace chosen.id backoff (gomLoop brokers chosen outcome fuel (retries + 1) (backoff ^ 2))
      else
        ⟨[chosen.id], [], GomResult.discoveryFailed err⟩

/-- The single broker selection `self.brokers[random.choice(self.brokers.keys())]`,
performed once before the loop.  The oracle `pick 0` drives `random.choice`:
a uniform draw over the keys of a dict with unique keys is a uniform draw over
its entries, so the selection is entry `pick 0 % length`. -/
def chosenBroker (b0 : Int × Broker) (bs : List (Int × Broker)) (pick : Nat → Nat) : Broker :=
  ((b0 :: bs).getD (pick 0 % (b0 :: bs).length) b0).2

/-- `get_offset_manager`.  With an empty broker map, `random.choice` raises
before any attempt is issued; otherwise one broker is drawn and the retry
loop runs against it with initial `backoff = 2` and `retries = 0`. -/
def getOffsetManager (brokers : List (Int × Broker)) (pick : Nat → Nat)
    (outcome : Nat → QueryOutcome) : GomTrace :=
  match brokers with
  | [] => ⟨[], [], GomResult.choiceFromEmpty⟩
  | b0 :: bs => gomLoop (b0 :: bs) (chosenBroker b0 bs pick) outcome MAX_RETRIES 0 2

/-! ### Lemmas about `_update_brokers` -/

/-- A broker handle already in the dict is never replaced by the add/update
loop, whatever the loop's outcome: present ids are either left alone or make
the loop raise. -/
theorem ubLoop_preserves_existing (todo : List (Int × BrokerMeta)) :
    ∀ (m : List (Int × Broker)) (tag : Nat) {k : Int} {b : Broker},
      findA k m = some b → findA k (updateBrokersLoop todo m tag).1 = some b := by
  induction todo with
  | nil =>
    intro m tag k b h
    simpa [updateBrokersLoop] using h
  | cons p rest ih =>
    obtain ⟨id, meta⟩ := p
    intro m tag k b h
    rcases hf : findA id m with _ | b0
    · have hne : k ≠ id := by
        intro he
        subst he
        rw [h] at hf
        exact Option.noConfusion hf

      simp only [updateBrokersLoop, hf]
      exact ih _ _ (by rw [findA_setA_of_ne _ _ hne]; exact h)
    · by_cases hc : meta.host = b0.host ∧ meta.port = b0.port
      · simp only [updateBrokersLoop, hf, if_pos hc]
        exact ih m tag h
      · simp only [updateBrokersLoop, hf, if_neg hc]
        exact h

/-- Ids not mentioned in the snapshot are untouched by the add/update loop. -/
theorem ubLoop_not_mem (todo : List (Int × BrokerMeta)) :
    ∀ (m : List (Int × Broker)) (tag : Nat) {k : Int},
      k ∉ todo.map Prod.fst → findA k (updateBrokersLoop todo m tag).1 = findA k m := by
  induction todo with
  | nil =>
    intro m tag k _
    simp [updateBrokersLoop]
  | cons p rest ih =>
    obtain ⟨id, meta⟩ := p
    intro m tag k hk
    rw [List.map_cons, List.mem_cons] at hk
    push_neg at hk
    rcases hf : findA id m with _ | b0
    · simp only [updateBrokersLoop, hf]
      rw [ih _ _ hk.2, findA_setA_of_ne _ _ hk.1]
    · by_cases hc : meta.host = b0.host ∧ meta.port = b0.port
      · simp only [updateBrokersLoop, hf, if_pos hc]
        exact ih m tag hk.2
      · simp only [updateBrokersLoop, hf, if_neg hc]

/-- Every entry of the loop's resulting dict was already present or has its
key in the snapshot. -/
theorem ubLoop_entries (todo : List (Int × BrokerMeta)) :
    ∀ (m : List (Int × Broker)) (tag : Nat) {k : Int} {v : Broker},
      (k, v) ∈ (updateBrokersLoop todo m tag).1 →
      (k, v) ∈ m ∨ k ∈ todo.map Prod.fst := by
  induction todo with
  | nil =>
    intro m tag k v h
    exact Or.inl (by simpa [updateBrokersLoop] using h)
  | cons p rest ih =>
    obtain ⟨id, meta⟩ := p
    intro m tag k v h
    rcases hf : findA id m with _ | b0
    · simp only [updateBrokersLoop, hf] at h
      rcases ih _ _ h with h1 | h1
      · rcases mem_of_setA h1 with h2 | h2
        · exact Or.inr (by simp [h2.1])
        · exact Or.inl h2
      · exact Or.inr (by simp [h1])
    · by_cases hc : meta.host = b0.host ∧ meta.port = b0.port
      · simp only [updateBrokersLoop, hf, if_pos hc] at h
        rcases ih _ _ h with h1 | h1
        · exact Or.inl h1
        · exact Or.inr (by simp [h1])
      · simp only [updateBrokersLoop, hf, if_neg hc] at h
        exact Or.inl h

/-- When no id present in both the dict and the snapshot changed its address,
the add/update loop completes without raising. -/
theorem ubLoop_safe_no_err (todo : List (Int × BrokerMeta)) :
    ∀ (m : List (Int × Broker)) (tag : Nat),
      (todo.map Prod.fst).Nodup →
      (∀ id meta b, (id, meta) ∈ todo → findA id m = some b →
        meta.host = b.host ∧ meta.port = b.port) →
      (updateBrokersLoop todo m tag).2.2 = none := by
  induction todo with
  | nil =>
    intro m tag _ _
    simp [updateBrokersLoop]
  | cons p rest ih =>
    obtain ⟨id, meta⟩ := p
    intro m tag hnd hsafe
    rw [List.map_cons, List.nodup_cons] at hnd
    rcases hf : findA id m with _ | b0
    · simp only [updateBrokersLoop, hf]
      refine ih _ _ hnd.2 ?_
      intro id1 meta1 b1 hmem1 hfind1
      have hne : id1 ≠ id := by
        intro he
        subst he
        exact hnd.1 (List.mem_map.mpr ⟨(id1, meta1), hmem1, rfl⟩)
      rw [findA_setA_of_ne _ _ hne] at hfind1
      exact hsafe id1 meta1 b1 (List.mem_cons_of_mem _ hmem1) hfind1
    · have hc := hsafe id meta b0 (List.mem_cons_self _ _) hf
      simp only [updateBrokersLoop, hf, if_pos hc]
      refine ih _ _ hnd.2 ?_
      intro id1 meta1 b1 hmem1 hfind1
      exact hsafe id1 meta1 b1 (List.mem_cons_of_mem _ hmem1) hfind1

/-- Success-run characterisation of the add/update loop at an id the snapshot
mentions: a previously present handle is kept verbatim (and its address
matches the metadata), an absent id is bound to a handle built from its
metadata. -/
theorem ubLoop_mem_char (todo : List (Int × BrokerMeta)) :
    ∀ (m : List (Int × Broker)) (tag : Nat) {i : Int} {mt : BrokerMeta},
      (todo.map Prod.fst).Nodup →
      (i, mt) ∈ todo →
      (updateBrokersLoop todo m tag).2.2 = none →
      (∀ b, findA i m = some b →
        findA i (updateBrokersLoop todo m tag).1 = some b ∧
        mt.host = b.host ∧ mt.port = b.port)
      ∧ (findA i m = none →
        ∃ t, findA i (updateBrokersLoop todo m tag).1 = some (Broker.fromMetadata mt t)) := by
  induction todo with
  | nil =>
    intro m tag i mt _ hmem _
    simp at hmem
  | cons p rest ih =>
    obtain ⟨i0, mt0⟩ := p
    intro m tag i mt hnd hmem hnone
    rw [List.map_cons, List.nodup_cons] at hnd
    rcases List.mem_cons.mp hmem with hhead | hrest
    · rw [Prod.mk.injEq] at hhead
      obtain ⟨hi, hm⟩ := hhead
      subst hi
      subst hm
      rcases hf : findA i m with _ | b0
      · constructor
        · intro b hb
          exact Option.noConfusion hb
        · intro _
          simp only [updateBrokersLoop, hf]
          exact ⟨tag, ubLoop_preserves_existing rest _ _ (findA_setA_self _ _ _)⟩
      · by_cases hc : mt.host = b0.host ∧ mt.port = b0.port
        · constructor
          · intro b hb
            cases hb
            simp only [updateBrokersLoop, hf, if_pos hc]
            exact ⟨ubLoop_preserves_existing rest _ _ hf, hc⟩
          · intro hb
            exact Option.noConfusion hb
        · simp only [updateBrokersLoop, hf, if_neg hc] at hnone
          exact Option.noConfusion hnone
    · have hne : i ≠ i0 := by
        intro he
        subst he
        exact hnd.1 (List.mem_map.mpr ⟨(i, mt), hrest, rfl⟩)
      rcases hf : findA i0 m with _ | b0
      · simp only [updateBrokersLoop, hf] at hnone ⊢
        have hrec := ih _ (tag + 1) hnd.2 hrest hnone
        rw [findA_setA_of_ne _ _ hne] at hrec
        exact hrec
      · by_cases hc : mt0.host = b0.host ∧ mt0.port = b0.port
        · simp only [updateBrokersLoop, hf, if_pos hc] at hnone ⊢
          exact ih _ tag hnd.2 hrest hnone
        · simp only [updateBrokersLoop, hf, if_neg hc] at hnone
          exact Option.noConfusion hnone

/-- A present id whose snapshot address differs makes the loop raise. -/
theorem ubLoop_err_of_mismatch (todo : List (Int × BrokerMeta)) :
    ∀ (m : List (Int × Broker)) (tag : Nat) {i : Int} {mt : BrokerMeta} {b : Broker},
      (i, mt) ∈ todo → findA i m = some b →
      ¬(mt.host = b.host ∧ mt.port = b.port) →
      ((updateBrokersLoop todo m tag).2.2).isSome := by
  induction todo with
  | nil =>
    intro m tag i mt b hmem _ _
    simp at hmem
  | cons p rest ih =>
    obtain ⟨i0, mt0⟩ := p
    intro m tag i mt b hmem hb hdiff
    rcases hf : findA i0 m with _ | b0
    · have hrest : (i, mt) ∈ rest := by
        rcases List.mem_cons.mp hmem with hhead | hrest
        · rw [Prod.mk.injEq] at hhead
          rw [hhead.1] at hb
          rw [hb] at hf
          exact Option.noConfusion hf
        · exact hrest
      have hne : i ≠ i0 := by
        intro he
        subst he
        rw [hb] at hf
        exact Option.noConfusion hf
      simp only [updateBrokersLoop, hf]
      exact ih _ _ hrest (by rw [findA_setA_of_ne _ _ hne]; exact hb) hdiff
    · by_cases hc : mt0.host = b0.host ∧ mt0.port = b0.port
      · have hrest : (i, mt) ∈ rest := by
          rcases List.mem_cons.mp hmem with hhead | hrest
          · rw [Prod.mk.injEq] at hhead
            rw [hhead.1] at hb
            rw [hb] at hf
            cases hf
            rw [hhead.2] at hdiff
            exact absurd hc hdiff
          · exact hrest
        simp only [updateBrokersLoop, hf, if_pos hc]
        exact ih _ _ hrest hb hdiff
      · simp only [updateBrokersLoop, hf, if_neg hc]
        rfl

/-- When every snapshot entry is already bound to a handle with the same
address, the add/update loop is the identity: no eviction, no construction,
no raise, no fresh tag. -/
theorem ubLoop_id (todo : List (Int × BrokerMeta)) :
    ∀ (m : List (Int × Broker)) (tag : Nat),
      (∀ id meta, (id, meta) ∈ todo →
        ∃ b, findA id m = some b ∧ meta.host = b.host ∧ meta.port = b.port) →
      updateBrokersLoop todo m tag = (m, tag, none) := by
  induction todo with
  | nil =>
    intro m tag _
    simp [updateBrokersLoop]
  | cons p rest ih =>
    obtain ⟨id, meta⟩ := p
    intro m tag hfix
    obtain ⟨b0, hf, hc⟩ := hfix id meta (List.mem_cons_self _ _)
    simp only [updateBrokersLoop, hf, if_pos hc]
    exact ih m tag fun id1 meta1 hmem1 => hfix id1 meta1 (List.mem_cons_of_mem _ hmem1)

/-! ### Lemmas about `_update_topics` -/

/-- A filter that keeps every entry is the identity. -/
theorem filterA_eq_self {α β : Type} (m : List (α × β)) (pred : α → Bool)
    (h : ∀ p ∈ m, pred p.1 = true) : (m.filter fun p => pred p.1) = m := by
  induction m with
  | nil => simp
  | cons p rest ih =>
    rw [List.filter_cons, if_pos (h p (List.mem_cons_self _ _))]
    rw [ih fun q hq => h q (List.mem_cons_of_mem _ hq)]

/-- Names not mentioned in the snapshot are untouched by the topic
add/update loop. -/
theorem utLoop_not_mem (ex : Bool) (todo : List (String × TopicMeta)) :
    ∀ (m : List (String × Topic)) (tag : Nat) {k : String},
      k ∉ todo.map Prod.fst → findA k (updateTopicsLoop ex todo m tag).1 = findA k m := by
  induction todo with
  | nil =>
    intro m tag k _
    simp [updateTopicsLoop]
  | cons p rest ih =>
    obtain ⟨name, meta⟩ := p
    intro m tag k hk
    rw [List.map_cons, List.mem_cons] at hk
    push_neg at hk
    by_cases hex : shouldExcludeTopic ex name
    · simp only [updateTopicsLoop, if_pos hex]
      exact ih _ _ hk.2
    · rcases hf : findA name m with _ | t
      · simp only [updateTopicsLoop, if_neg hex, hf]
        rw [ih _ _ hk.2, findA_setA_of_ne _ _ hk.1]
      · simp only [updateTopicsLoop, if_neg hex, hf]
        rw [ih _ _ hk.2, findA_setA_of_ne _ _ hk.1]

/-- Every entry of the topic loop's result was already present or has its
name in the snapshot. -/
theorem utLoop_entries (ex : Bool) (todo : List (String × TopicMeta)) :
    ∀ (m : List (String × Topic)) (tag : Nat) {k : String} {v : Topic},
      (k, v) ∈ (updateTopicsLoop ex todo m tag).1 →
      (k, v) ∈ m ∨ k ∈ todo.map Prod.fst := by
  induction todo with
  | nil =>
    intro m tag k v h
    exact Or.inl (by simpa [updateTopicsLoop] using h)
  | cons p rest ih =>
    obtain ⟨name, meta⟩ := p
    intro m tag k v h
    by_cases hex : shouldExcludeTopic ex name
    · simp only [updateTopicsLoop, if_pos hex] at h
      rcases ih _ _ h with h1 | h1
      · exact Or.inl h1
      · exact Or.inr (by simp [h1])
    · rcases hf : findA name m with _ | t
      · simp only [updateTopicsLoop, if_neg hex, hf] at h
        rcases ih _ _ h with h1 | h1
        · rcases mem_of_setA h1 with h2 | h2
          · exact Or.inr (by simp [h2.1])
          · exact Or.inl h2
        · exact Or.inr (by simp [h1])
      · simp only [updateTopicsLoop, if_neg hex, hf] at h
        rcases ih _ _ h with h1 | h1
        · rcases mem_of_setA h1 with h2 | h2
          · exact Or.inr (by simp [h2.1])
          · exact Or.inl h2
        · exact Or.inr (by simp [h1])

/-- An excluded name is never touched by the add/update loop: its snapshot
entries are skipped and other names' writes cannot reach it. -/
theorem utLoop_excluded (ex : Bool) (todo : List (String × TopicMeta)) :
    ∀ (m : List (String × Topic)) (tag : Nat) {k : String},
      shouldExcludeTopic ex k = true →
      findA k (updateTopicsLoop ex todo m tag).1 = findA k m := by
  induction todo with
  | nil =>
    intro m tag k _
    simp [updateTopicsLoop]
  | cons p rest ih =>
    obtain ⟨name, meta⟩ := p
    intro m tag k hk
    by_cases hex : shouldExcludeTopic ex name
    · simp only [updateTopicsLoop, if_pos hex]
      exact ih _ _ hk
    · have hne : k ≠ name := by
        intro he
        rw [he] at hk
        exact hex hk
      rcases hf : findA name m with _ | t
      · simp only [updateTopicsLoop, if_neg hex, hf]
        rw [ih _ _ hk, findA_setA_of_ne _ _ hne]
      · simp only [updateTopicsLoop, if_neg hex, hf]
        rw [ih _ _ hk, findA_setA_of_ne _ _ hne]

/-- Characterisation of the topic add/update loop at a non-excluded name the
snapshot mentions: an absent name is bound to a fresh handle holding the
snapshot metadata, a present handle is updated in place (same tag, new
metadata). -/
theorem utLoop_mem_char (ex : Bool) (todo : List (String × TopicMeta)) :
    ∀ (m : List (String × Topic)) (tag : Nat) {nm : String} {mt : TopicMeta},
      (todo.map Prod.fst).Nodup →
      (nm, mt) ∈ todo →
      shouldExcludeTopic ex nm = false →
      (findA nm m = none →
        ∃ t, findA nm (updateTopicsLoop ex todo m tag).1 = some (Topic.mk t mt))
      ∧ (∀ t0, findA nm m = some t0 →
        findA nm (updateTopicsLoop ex todo m tag).1 = some (Topic.mk t0.tag mt)) := by
  induction todo with
  | nil =>
    intro m tag nm mt _ hmem _
    simp at hmem
  | cons p rest ih =>
    obtain ⟨name0, meta0⟩ := p
    intro m tag nm mt hnd hmem hexF
    rw [List.map_cons, List.nodup_cons] at hnd
    rcases List.mem_cons.mp hmem with hhead | hrest
    · rw [Prod.mk.injEq] at hhead
      obtain ⟨hn, hm⟩ := hhead
      subst hn
      subst hm
      have hnotrest : nm ∉ rest.map Prod.fst := hnd.1
      have hexF1 : ¬shouldExcludeTopic ex nm = true := by
        rw [hexF]
        exact Bool.false_ne_true
      rcases hf : findA nm m with _ | t0
      · constructor
        · intro _
          simp only [updateTopicsLoop, if_neg hexF1, hf]
          refine ⟨tag, ?_⟩
          rw [utLoop_not_mem ex rest _ _ hnotrest, findA_setA_self]
        · intro t0 hb
          exact Option.noConfusion hb
      · constructor
        · intro hb
          exact Option.noConfusion hb
        · intro t1 hb
          cases hb
          simp only [updateTopicsLoop, if_neg hexF1, hf]
          rw [utLoop_not_mem ex rest _ _ hnotrest, findA_setA_self]
          rfl
    · have hne : nm ≠ name0 := by
        intro he
        subst he
        exact hnd.1 (List.mem_map.mpr ⟨(nm, mt), hrest, rfl⟩)
      by_cases hex : shouldExcludeTopic ex name0
      · simp only [updateTopicsLoop, if_pos hex]
        exact ih _ _ hnd.2 hrest hexF
      · rcases hf : findA name0 m with _ | t0
        · simp only [updateTopicsLoop, if_neg hex, hf]
          have hrec := ih (setA name0 (Topic.mk tag meta0) m) (tag + 1) hnd.2 hrest hexF
          rw [findA_setA_of_ne _ _ hne] at hrec
          exact hrec
        · simp only [updateTopicsLoop, if_neg hex, hf]
          have hrec := ih (setA name0 (t0.updateMeta meta0) m) tag hnd.2 hrest hexF
          rw [findA_setA_of_ne _ _ hne] at hrec
          exact hrec

/-- When every non-excluded snapshot entry is already bound to a handle whose
metadata equals the snapshot's, the topic add/update loop is the identity. -/
theorem utLoop_id (ex : Bool) (todo : List (String × TopicMeta)) :
    ∀ (m : List (String × Topic)) (tag : Nat),
      (∀ nm mt, (nm, mt) ∈ todo → shouldExcludeTopic ex nm = false →
        ∃ t0, findA nm m = some t0 ∧ t0.meta = mt) →
      updateTopicsLoop ex todo m tag = (m, tag) := by
  induction todo with
  | nil =>
    intro m tag _
    simp [updateTopicsLoop]
  | cons p rest ih =>
    obtain ⟨name0, meta0⟩ := p
    intro m tag hfix
    by_cases hex : shouldExcludeTopic ex name0
    · simp only [updateTopicsLoop, if_pos hex]
      exact ih m tag fun nm mt hmem hexF => hfix nm mt (List.mem_cons_of_mem _ hmem) hexF
    · obtain ⟨t0, hf, hmeta⟩ :=
        hfix name0 meta0 (List.mem_cons_self _ _) (by simpa using hex)
      have hset : setA name0 (t0.updateMeta meta0) m = m := by
        have ht : t0.updateMeta meta0 = t0 := by
          cases t0
          simp [Topic.updateMeta] at hmeta ⊢
          exact hmeta.symm
        rw [ht]
        exact setA_self_of_findA hf
      simp only [updateTopicsLoop, if_neg hex, hf, hset]
      exact ih m tag fun nm mt hmem hexF => hfix nm mt (List.mem_cons_of_mem _ hmem) hexF

/-- The names bound by the topic add/update loop: every result entry either
was already present or passed the exclusion filter. -/
theorem utLoop_inv (ex : Bool) (todo : List (String × TopicMeta)) :
    ∀ (m : List (String × Topic)) (tag : Nat),
      (∀ p ∈ m, shouldExcludeTopic ex p.1 = false) →
      ∀ p ∈ (updateTopicsLoop ex todo m tag).1, shouldExcludeTopic ex p.1 = false := by
  induction todo with
  | nil =>
    intro m tag hinv p hp
    exact hinv p (by simpa [updateTopicsLoop] using hp)
  | cons q rest ih =>
    obtain ⟨name0, meta0⟩ := q
    intro m tag hinv p hp
    by_cases hex : shouldExcludeTopic ex name0
    · simp only [updateTopicsLoop, if_pos hex] at hp
      exact ih m tag hinv p hp
    · rcases hf : findA name0 m with _ | t0
      · simp only [updateTopicsLoop, if_neg hex, hf] at hp
        refine ih _ _ ?_ p hp
        intro q hq
        obtain ⟨k1, v1⟩ := q
        rcases mem_of_setA hq with h2 | h2
        · simpa [h2.1] using hex
        · exact hinv _ h2
      · simp only [updateTopicsLoop, if_neg hex, hf] at hp
        refine ih _ _ ?_ p hp
        intro q hq
        obtain ⟨k1, v1⟩ := q
        rcases mem_of_setA hq with h2 | h2
        · simpa [h2.1] using hex
        · exact hinv _ h2

/-! ### Claim theorems: broker reconciliation -/

/-- C1: exact broker reconciliation.  For every current broker map and every
fresh snapshot in which no identity already present reappears with a changed
host or port, `update()` succeeds and afterwards the broker map's key set
equals exactly the identity set of the snapshot: ids absent from the snapshot
are evicted, ids new in the snapshot are inserted as handles built from their
metadata, and ids present in both keep their existing handle. -/
theorem broker_reconciliation_exact (c : Cluster) (md : Metadata)
    (hnd : (md.brokers.map Prod.fst).Nodup)
    (hsafe : ∀ pm ∈ md.brokers, ∀ pb ∈ c.brokers,
      pm.1 = pb.1 → pm.2.host = pb.2.host ∧ pm.2.port = pb.2.port) :
    ∃ c1, c.update md = (c1, none) ∧
      (∀ i : Int, (findA i c1.brokers).isSome ↔ (findA i md.brokers).isSome) ∧
      (∀ (i : Int) (b : Broker), findA i c.brokers = some b →
        (findA i md.brokers).isSome → findA i c1.brokers = some b) ∧
      (∀ (i : Int) (mt : BrokerMeta), findA i md.brokers = some mt →
        findA i c.brokers = none →
        ∃ t, findA i c1.brokers = some (Broker.fromMetadata mt t)) := by
  have hsafe1 : ∀ i mt b, (i, mt) ∈ md.brokers →
      findA i (c.brokers.filter fun p => (findA p.1 md.brokers).isSome) = some b →
      mt.host = b.host ∧ mt.port = b.port := by
    intro i mt b hmem hkept
    have hmemB : (i, b) ∈ c.brokers := List.mem_filter.mp (mem_of_findA hkept) |>.1
    exact hsafe (i, mt) hmem (i, b) hmemB rfl
  have herr : (updateBrokersLoop md.brokers
      (c.brokers.filter fun p => (findA p.1 md.brokers).isSome) c.freshTag).2.2 = none :=
    ubLoop_safe_no_err md.brokers _ c.freshTag hnd fun i mt b hmem hf => hsafe1 i mt b hmem hf
  rcases hres : updateBrokersLoop md.brokers
      (c.brokers.filter fun p => (findA p.1 md.brokers).isSome) c.freshTag with ⟨bm, tag1, err⟩
  rw [hres] at herr
  subst herr
  rcases hrt : updateTopics c.excludeInternalTopics c.topics md.topics tag1 with ⟨tm, tag2⟩
  refine ⟨{ c with brokers := bm, topics := tm, freshTag := tag2 }, ?_, ?_, ?_, ?_⟩
  · simp only [Cluster.update, updateBrokers, hres, hrt]
  · intro i
    rcases hmd : findA i md.brokers with _ | mt
    · have h1 : findA i bm =
          findA i (c.brokers.filter fun p => (findA p.1 md.brokers).isSome) := by
        have := ubLoop_not_mem md.brokers
          (c.brokers.filter fun p => (findA p.1 md.brokers).isSome) c.freshTag
          (not_mem_keys_of_findA_none hmd)
        rw [hres] at this
        exact this
      rw [findA_filter_neg i c.brokers (fun k => (findA k md.brokers).isSome)
        (by simp [hmd])] at h1
      simp [h1, hmd]
    · have hchar := ubLoop_mem_char md.brokers
        (c.brokers.filter fun p => (findA p.1 md.brokers).isSome) c.freshTag
        hnd (mem_of_findA hmd) (by rw [hres])
      rw [hres] at hchar
      rcases hkept : findA i (c.brokers.filter fun p => (findA p.1 md.brokers).isSome)
          with _ | b
      · obtain ⟨t, ht⟩ := hchar.2 hkept
        simp [ht, hmd]
      · obtain ⟨hb, _, _⟩ := hchar.1 b hkept
        simp [hb, hmd]
  · intro i b hb hmds
    rcases hmd : findA i md.brokers with _ | mt
    · rw [hmd] at hmds
      exact absurd hmds (by simp)
    · have hchar := ubLoop_mem_char md.brokers
        (c.brokers.filter fun p => (findA p.1 md.brokers).isSome) c.freshTag
        hnd (mem_of_findA hmd) (by rw [hres])
      rw [hres] at hchar
      have hkept : findA i (c.brokers.filter fun p => (findA p.1 md.brokers).isSome)
          = some b := by
        rw [findA_filter_pos i c.brokers (fun k => (findA k md.brokers).isSome)
          (by simp [hmd])]
        exact hb
      exact (hchar.1 b hkept).1
  · intro i mt hmt hnone
    have hchar := ubLoop_mem_char md.brokers
      (c.brokers.filter fun p => (findA p.1 md.brokers).isSome) c.freshTag
      hnd (mem_of_findA hmt) (by rw [hres])
    rw [hres] at hchar
    have hkept : findA i (c.brokers.filter fun p => (findA p.1 md.brokers).isSome)
        = none := by
      rw [findA_filter_pos i c.brokers (fun k => (findA k md.brokers).isSome)
        (by simp [hmt])]
      exact hnone
    exact hchar.2 hkept

/-- C1 witness: the theorem applied to a concrete one-broker map and a
two-broker snapshot that keeps broker 1's address. -/
theorem broker_reconciliation_exact_witness :
    ∃ c1, (Cluster.mk [(1, Broker.mk 1 "10.0.0.1" "9092" 50)] [] true 60).update
        (Metadata.mk [(1, BrokerMeta.mk 1 "10.0.0.1" "9092"),
                      (2, BrokerMeta.mk 2 "10.0.0.2" "9092")] []) = (c1, none) ∧
      (∀ i : Int, (findA i c1.brokers).isSome ↔
        (findA i [(1, BrokerMeta.mk 1 "10.0.0.1" "9092"),
                  (2, BrokerMeta.mk 2 "10.0.0.2" "9092")]).isSome) ∧
      (∀ (i : Int) (b : Broker),
        findA i [(1, Broker.mk 1 "10.0.0.1" "9092" 50)] = some b →
        (findA i [(1, BrokerMeta.mk 1 "10.0.0.1" "9092"),
                  (2, BrokerMeta.mk 2 "10.0.0.2" "9092")]).isSome →
        findA i c1.brokers = some b) ∧
      (∀ (i : Int) (mt : BrokerMeta),
        findA i [(1, BrokerMeta.mk 1 "10.0.0.1" "9092"),
                 (2, BrokerMeta.mk 2 "10.0.0.2" "9092")] = some mt →
        findA i [(1, Broker.mk 1 "10.0.0.1" "9092" 50)] = none →
        ∃ t, findA i c1.brokers = some (Broker.fromMetadata mt t)) :=
  broker_reconciliation_exact
    (Cluster.mk [(1, Broker.mk 1 "10.0.0.1" "9092" 50)] [] true 60)
    (Metadata.mk [(1, BrokerMeta.mk 1 "10.0.0.1" "9092"),
                  (2, BrokerMeta.mk 2 "10.0.0.2" "9092")] [])
    (by decide) (by decide)

/-- C3: fatal address change.  A broker id present in the map that reappears
in the snapshot with a different host or port makes `update()` raise the
topology-change error, and the map entry for that id still holds the old
handle (neither replaced nor evicted). -/
theorem topology_change_rejected (c : Cluster) (md : Metadata) (i : Int)
    (b : Broker) (mt : BrokerMeta)
    (hb : findA i c.brokers = some b)
    (hm : findA i md.brokers = some mt)
    (hdiff : mt.host ≠ b.host ∨ mt.port ≠ b.port) :
    ∃ c1 j, c.update md = (c1, some (ClusterErr.topologyChangeRejected j)) ∧
      findA i c1.brokers = some b := by
  have hkept : findA i (c.brokers.filter fun p => (findA p.1 md.brokers).isSome)
      = some b := by
    rw [findA_filter_pos i c.brokers (fun k => (findA k md.brokers).isSome)
      (by simp [hm])]
    exact hb
  have herr : ((updateBrokersLoop md.brokers
      (c.brokers.filter fun p => (findA p.1 md.brokers).isSome) c.freshTag).2.2).isSome :=
    ubLoop_err_of_mismatch md.brokers _ c.freshTag (mem_of_findA hm) hkept
      (by rcases hdiff with h | h <;> exact fun hc => h (by simp [hc.1, hc.2]))
  have hpres : findA i (updateBrokersLoop md.brokers
      (c.brokers.filter fun p => (findA p.1 md.brokers).isSome) c.freshTag).1 = some b :=
    ubLoop_preserves_existing md.brokers _ c.freshTag hkept
  rcases hres : updateBrokersLoop md.brokers
      (c.brokers.filter fun p => (findA p.1 md.brokers).isSome) c.freshTag with ⟨bm, tag1, err⟩
  rw [hres] at herr hpres
  rcases err with _ | j
  · exact absurd herr (by simp)
  · refine ⟨{ c with brokers := bm, freshTag := tag1 }, j, ?_, hpres⟩
    simp only [Cluster.update, updateBrokers, hres]

/-- C3 witness: broker 1 reappearing at host `10.0.0.9` instead of
`10.0.0.1` makes the refresh raise and keeps the old handle. -/
theorem topology_change_rejected_witness :
    ∃ c1 j, (Cluster.mk [(1, Broker.mk 1 "10.0.0.1" "9092" 50)] [] true 60).update
        (Metadata.mk [(1, BrokerMeta.mk 1 "10.0.0.9" "9092")] []) =
        (c1, some (ClusterErr.topologyChangeRejected j)) ∧
      findA 1 c1.brokers = some (Broker.mk 1 "10.0.0.1" "9092" 50) :=
  topology_change_rejected
    (Cluster.mk [(1, Broker.mk 1 "10.0.0.1" "9092" 50)] [] true 60)
    (Metadata.mk [(1, BrokerMeta.mk 1 "10.0.0.9" "9092")] [])
    1 (Broker.mk 1 "10.0.0.1" "9092" 50) (BrokerMeta.mk 1 "10.0.0.9" "9092")
    (by decide) (by decide) (by decide)

/-! ### Claim theorems: idempotence of refresh -/

/-- C4: idempotence of refresh.  After a successful `update()` on a snapshot,
a second `update()` on the identical snapshot returns the very same cluster
state: both maps hold exactly the same entries — the same handle objects
(equal tags), no eviction or recreation, and the allocation counter does not
move. -/
theorem update_idempotent (c : Cluster) (md : Metadata) (c1 : Cluster)
    (hndB : (md.brokers.map Prod.fst).Nodup)
    (hndT : (md.topics.map Prod.fst).Nodup)
    (h1 : c.update md = (c1, none)) :
    c1.update md = (c1, none) := by
  rcases hres : updateBrokersLoop md.brokers
      (c.brokers.filter fun p => (findA p.1 md.brokers).isSome) c.freshTag with ⟨bm, tag1, err⟩
  rcases err with _ | j
  swap
  · simp only [Cluster.update, updateBrokers, hres] at h1
    simp at h1
  rcases hrt : updateTopicsLoop c.excludeInternalTopics md.topics
      (c.topics.filter fun p => (findA p.1 md.topics).isSome) tag1 with ⟨tm, tag2⟩
  have h1c : c1 = { c with brokers := bm, topics := tm, freshTag := tag2 } := by
    simp only [Cluster.update, updateBrokers, updateTopics, hres, hrt] at h1
    rw [Prod.mk.injEq] at h1
    exact h1.1.symm
  subst h1c
  have hbm_find : ∀ (i : Int) (mt : BrokerMeta), (i, mt) ∈ md.brokers →
      ∃ b, findA i bm = some b ∧ mt.host = b.host ∧ mt.port = b.port := by
    intro i mt hmem
    have hchar := ubLoop_mem_char md.brokers
      (c.brokers.filter fun p => (findA p.1 md.brokers).isSome) c.freshTag
      hndB hmem (by rw [hres])
    rw [hres] at hchar
    rcases hkept : findA i (c.brokers.filter fun p => (findA p.1 md.brokers).isSome)
        with _ | b0
    · obtain ⟨t, ht⟩ := hchar.2 hkept
      exact ⟨Broker.fromMetadata mt t, ht, rfl, rfl⟩
    · obtain ⟨hb, hh, hp⟩ := hchar.1 b0 hkept
      exact ⟨b0, hb, hh, hp⟩
  have hbm_filter : (bm.filter fun p => (findA p.1 md.brokers).isSome) = bm := by
    refine filterA_eq_self bm (fun k => (findA k md.brokers).isSome) ?_
    intro p hp
    obtain ⟨k, v⟩ := p
    have hp1 : (k, v) ∈ (updateBrokersLoop md.brokers
        (c.brokers.filter fun q => (findA q.1 md.brokers).isSome) c.freshTag).1 := by
      rw [hres]
      exact hp
    rcases ubLoop_entries md.brokers _ c.freshTag hp1 with hent | hent
    · exact (List.mem_filter.mp hent).2
    · exact findA_isSome_of_mem_keys hent
  have hub2 : updateBrokers bm md.brokers tag2 = (bm, tag2, none) := by
    rw [updateBrokers, hbm_filter]
    refine ubLoop_id md.brokers bm tag2 ?_
    intro i mt hmem
    exact hbm_find i mt hmem
  have htm_find : ∀ (nm : String) (mt : TopicMeta), (nm, mt) ∈ md.topics →
      shouldExcludeTopic c.excludeInternalTopics nm = false →
      ∃ t0, findA nm tm = some t0 ∧ t0.meta = mt := by
    intro nm mt hmem hexF
    have hchar := utLoop_mem_char c.excludeInternalTopics md.topics
      (c.topics.filter fun p => (findA p.1 md.topics).isSome) tag1
      hndT hmem hexF
    rw [hrt] at hchar
    rcases hkept : findA nm (c.topics.filter fun p => (findA p.1 md.topics).isSome)
        with _ | t0
    · obtain ⟨t, ht⟩ := hchar.1 hkept
      exact ⟨Topic.mk t mt, ht, rfl⟩
    · exact ⟨Topic.mk t0.tag mt, hchar.2 t0 hkept, rfl⟩
  have htm_filter : (tm.filter fun p => (findA p.1 md.topics).isSome) = tm := by
    refine filterA_eq_self tm (fun k => (findA k md.topics).isSome) ?_
    intro p hp
    obtain ⟨k, v⟩ := p
    have hp1 : (k, v) ∈ (updateTopicsLoop c.excludeInternalTopics md.topics
        (c.topics.filter fun q => (findA q.1 md.topics).isSome) tag1).1 := by
      rw [hrt]
      exact hp
    rcases utLoop_entries c.excludeInternalTopics md.topics _ tag1 hp1 with hent | hent
    · exact (List.mem_filter.mp hent).2
    · exact findA_isSome_of_mem_keys hent
  have hut2 : updateTopics c.excludeInternalTopics tm md.topics tag2 = (tm, tag2) := by
    rw [updateTopics, htm_filter]
    refine utLoop_id c.excludeInternalTopics md.topics tm tag2 ?_
    intro nm mt hmem hexF
    exact htm_find nm mt hmem hexF
  simp [Cluster.update, hub2, hut2]

/-- C4 witness: a concrete cluster built by one `update()` is a fixed point
of a second `update()` on the same snapshot. -/
theorem update_idempotent_witness :
    ((Cluster.init true).update
        (Metadata.mk [(1, BrokerMeta.mk 1 "10.0.0.1" "9092")]
          [("orders", TopicMeta.mk 5)])).1.update
        (Metadata.mk [(1, BrokerMeta.mk 1 "10.0.0.1" "9092")]
          [("orders", TopicMeta.mk 5)]) =
      (((Cluster.init true).update
        (Metadata.mk [(1, BrokerMeta.mk 1 "10.0.0.1" "9092")]
          [("orders", TopicMeta.mk 5)])).1, none) :=
  update_idempotent (Cluster.init true)
    (Metadata.mk [(1, BrokerMeta.mk 1 "10.0.0.1" "9092")] [("orders", TopicMeta.mk 5)])
    (((Cluster.init true).update
        (Metadata.mk [(1, BrokerMeta.mk 1 "10.0.0.1" "9092")]
          [("orders", TopicMeta.mk 5)])).1)
    (by decide) (by decide) (by decide)

/-! ### Claim theorems: internal-topic exclusion -/

/-- One `update()` preserves the exclusion flag and, when that flag never let
an excluded name in, the topic map stays free of excluded names. -/
theorem update_topics_inv (c : Cluster) (md : Metadata)
    (hinv : ∀ p ∈ c.topics, shouldExcludeTopic c.excludeInternalTopics p.1 = false) :
    (c.update md).1.excludeInternalTopics = c.excludeInternalTopics ∧
    ∀ p ∈ (c.update md).1.topics,
      shouldExcludeTopic c.excludeInternalTopics p.1 = false := by
  rcases hres : updateBrokersLoop md.brokers
      (c.brokers.filter fun p => (findA p.1 md.brokers).isSome) c.freshTag with ⟨bm, tag1, err⟩
  rcases err with _ | j
  · rcases hrt : updateTopicsLoop c.excludeInternalTopics md.topics
        (c.topics.filter fun p => (findA p.1 md.topics).isSome) tag1 with ⟨tm, tag2⟩
    have hupd : c.update md =
        ({ c with brokers := bm, topics := tm, freshTag := tag2 }, none) := by
      simp only [Cluster.update, updateBrokers, updateTopics, hres, hrt]
    rw [hupd]
    refine ⟨rfl, ?_⟩
    intro p hp
    have hp1 : p ∈ (updateTopicsLoop c.excludeInternalTopics md.topics
        (c.topics.filter fun q => (findA q.1 md.topics).isSome) tag1).1 := by
      rw [hrt]
      exact hp
    refine utLoop_inv c.excludeInternalTopics md.topics _ tag1 ?_ p hp1
    intro q hq
    exact hinv q (List.mem_filter.mp hq).1
  · have hupd : c.update md = ({ c with brokers := bm, freshTag := tag1 },
        some (ClusterErr.topologyChangeRejected j)) := by
      simp only [Cluster.update, updateBrokers, hres]
    rw [hupd]
    exact ⟨rfl, hinv⟩

/-- A whole sequence of `update()` calls preserves the invariant that no
excluded name is in the topic map. -/
theorem updateSeq_topics_inv (mds : List Metadata) :
    ∀ (c : Cluster),
      (∀ p ∈ c.topics, shouldExcludeTopic c.excludeInternalTopics p.1 = false) →
      (c.updateSeq mds).excludeInternalTopics = c.excludeInternalTopics ∧
      ∀ p ∈ (c.updateSeq mds).topics,
        shouldExcludeTopic c.excludeInternalTopics p.1 = false := by
  induction mds with
  | nil =>
    intro c hinv
    exact ⟨rfl, hinv⟩
  | cons md rest ih =>
    intro c hinv
    obtain ⟨hflag, hnext⟩ := update_topics_inv c md hinv
    have := ih (c.update md).1 (by rw [hflag]; exact hnext)
    rw [hflag] at this
    exact this

/-- C2: internal-topic exclusion invariant.  With exclusion enabled, no topic
whose name starts with the reserved `"__"` ever appears in the topic map,
across every sequence of `update()` calls from construction and every
snapshot content.  With exclusion disabled, `"__"` names are inserted and
updated exactly like any other name. -/
theorem internal_topic_exclusion :
    (∀ (mds : List Metadata) (nm : String) (t : Topic),
      (nm, t) ∈ ((Cluster.init true).updateSeq mds).topics →
      pyStartsWith "__" nm = false)
    ∧ (∀ (topics : List (String × Topic)) (tmeta : List (String × TopicMeta))
        (tag : Nat) (nm : String) (mt : TopicMeta),
        (tmeta.map Prod.fst).Nodup →
        findA nm tmeta = some mt →
        ((findA nm topics = none →
          ∃ t, findA nm (updateTopics false topics tmeta tag).1 = some (Topic.mk t mt))
        ∧ (∀ t0, findA nm topics = some t0 →
          findA nm (updateTopics false topics tmeta tag).1 = some (Topic.mk t0.tag mt)))) := by
  constructor
  · intro mds nm t hmem
    have hinv := (updateSeq_topics_inv mds (Cluster.init true) (by simp [Cluster.init])).2
    have := hinv (nm, t) hmem
    simpa [shouldExcludeTopic, Cluster.init] using this
  · intro topics tmeta tag nm mt hnd hfind
    have hexF : shouldExcludeTopic false nm = false := rfl
    have hchar := utLoop_mem_char false tmeta
      (topics.filter fun p => (findA p.1 tmeta).isSome) tag
      hnd (mem_of_findA hfind) hexF
    have hkeep : findA nm (topics.filter fun p => (findA p.1 tmeta).isSome)
        = findA nm topics := by
      rw [findA_filter_pos nm topics (fun k => (findA k tmeta).isSome) (by simp [hfind])]
    constructor
    · intro hnone
      rw [updateTopics]
      exact hchar.1 (by rw [hkeep]; exact hnone)
    · intro t0 hsome
      rw [updateTopics]
      exact hchar.2 t0 (by rw [hkeep]; exact hsome)

/-- C2 witness: with exclusion on, a snapshot carrying `"__consumer_offsets"`
leaves the topic map holding `"orders"` only; with exclusion off, `"__x"` is
inserted like any other topic. -/
theorem internal_topic_exclusion_witness :
    pyStartsWith "__" "orders" = false ∧
    (∃ t, findA "__x"
        (updateTopics false [] [("__x", TopicMeta.mk 5)] 0).1 =
        some (Topic.mk t (TopicMeta.mk 5))) :=
  ⟨internal_topic_exclusion.1
      [Metadata.mk [] [("__consumer_offsets", TopicMeta.mk 1), ("orders", TopicMeta.mk 2)]]
      "orders" (Topic.mk 0 (TopicMeta.mk 2)) (by decide),
    (internal_topic_exclusion.2 [] [("__x", TopicMeta.mk 5)] 0 "__x" (TopicMeta.mk 5)
      (by decide) (by decide)).1 (by decide)⟩

/-! ### Lemmas about `get_offset_manager` -/

/-- Every attempt of the retry loop targets the broker chosen before the
loop started. -/
theorem gomLoop_targets_all (brokers : List (Int × Broker)) (chosen : Broker)
    (outcome : Nat → QueryOutcome) :
    ∀ (fuel retries backoff : Nat) (x : Int),
      x ∈ (gomLoop brokers chosen outcome fuel retries backoff).targets → x = chosen.id := by
  intro fuel
  induction fuel with
  | zero =>
    intro retries backoff x hx
    simp [gomLoop] at hx
  | succ fuel ih =>
    intro retries backoff x hx
    rcases ho : outcome retries with e | cid
    · by_cases hr : retries + 1 < MAX_RETRIES
      · simp only [gomLoop, ho, if_pos hr, consTrace] at hx
        rcases List.mem_cons.mp hx with hx | hx
        · exact hx
        · exact ih _ _ x hx
      · simp only [gomLoop, ho, if_neg hr] at hx
        simpa using hx
    · simp only [gomLoop, ho] at hx
      simpa using hx

/-- The retry loop performs at most `fuel` attempts. -/
theorem gomLoop_targets_length (brokers : List (Int × Broker)) (chosen : Broker)
    (outcome : Nat → QueryOutcome) :
    ∀ (fuel retries backoff : Nat),
      (gomLoop brokers chosen outcome fuel retries backoff).targets.length ≤ fuel := by
  intro fuel
  induction fuel with
  | zero =>
    intro retries backoff
    simp [gomLoop]
  | succ fuel ih =>
    intro retries backoff
    rcases ho : outcome retries with e | cid
    · by_cases hr : retries + 1 < MAX_RETRIES
      · simp only [gomLoop, ho, if_pos hr, consTrace, List.length_cons]
        exact Nat.succ_le_succ (ih _ _)
      · simp only [gomLoop, ho, if_neg hr]
        simp
    · simp only [gomLoop, ho]
      simp

/-- Shape of a run whose first attempt succeeds. -/
theorem gom_shape_succ0 (b0 : Int × Broker) (bs : List (Int × Broker))
    (pick : Nat → Nat) (outcome : Nat → QueryOutcome) (cid : Int)
    (h0 : outcome 0 = QueryOutcome.success cid) :
    getOffsetManager (b0 :: bs) pick outcome =
      ⟨[(chosenBroker b0 bs pick).id], [], lookupResult (b0 :: bs) cid⟩ := by
  show gomLoop (b0 :: bs) (chosenBroker b0 bs pick) outcome (2 + 1) 0 2 = _
  rw [gomLoop, h0]

/-- Shape of a run that fails once and then succeeds. -/
theorem gom_shape_fail_succ (b0 : Int × Broker) (bs : List (Int × Broker))
    (pick : Nat → Nat) (outcome : Nat → QueryOutcome) (e0 : Nat) (cid : Int)
    (h0 : outcome 0 = QueryOutcome.fail e0)
    (h1 : outcome 1 = QueryOutcome.success cid) :
    getOffsetManager (b0 :: bs) pick outcome =
      ⟨[(chosenBroker b0 bs pick).id, (chosenBroker b0 bs pick).id], [2],
        lookupResult (b0 :: bs) cid⟩ := by
  show gomLoop (b0 :: bs) (chosenBroker b0 bs pick) outcome (2 + 1) 0 2 = _
  simp [gomLoop, h0, h1, MAX_RETRIES, consTrace]

/-- Shape of a run that fails twice and then succeeds. -/
theorem gom_shape_fail_fail_succ (b0 : Int × Broker) (bs : List (Int × Broker))
    (pick : Nat → Nat) (outcome : Nat → QueryOutcome) (e0 e1 : Nat) (cid : Int)
    (h0 : outcome 0 = QueryOutcome.fail e0)
    (h1 : outcome 1 = QueryOutcome.fail e1)
    (h2 : outcome 2 = QueryOutcome.success cid) :
    getOffsetManager (b0 :: bs) pick outcome =
      ⟨[(chosenBroker b0 bs pick).id, (chosenBroker b0 bs pick).id,
         (chosenBroker b0 bs pick).id], [2, 4],
        lookupResult (b0 :: bs) cid⟩ := by
  show gomLoop (b0 :: bs) (chosenBroker b0 bs pick) outcome (2 + 1) 0 2 = _
  simp [gomLoop, h0, h1, h2, MAX_RETRIES, consTrace]

/-- Shape of a run whose three attempts all fail: three targets, the sleeps
`2` and `2 ** 2 = 4`, and the third failure re-raised. -/
theorem gom_shape_all_fail (b0 : Int × Broker) (bs : List (Int × Broker))
    (pick : Nat → Nat) (outcome : Nat → QueryOutcome) (e0 e1 e2 : Nat)
    (h0 : outcome 0 = QueryOutcome.fail e0)
    (h1 : outcome 1 = QueryOutcome.fail e1)
    (h2 : outcome 2 = QueryOutcome.fail e2) :
    getOffsetManager (b0 :: bs) pick outcome =
      ⟨[(chosenBroker b0 bs pick).id, (chosenBroker b0 bs pick).id,
         (chosenBroker b0 bs pick).id], [2, 4],
        GomResult.discoveryFailed e2⟩ := by
  show gomLoop (b0 :: bs) (chosenBroker b0 bs pick) outcome (2 + 1) 0 2 = _
  simp [gomLoop, h0, h1, h2, MAX_RETRIES, consTrace]

/-! ### Claim theorems: coordinator discovery -/

/-- C5: bounded retry.  When every coordinator query fails,
`get_offset_manager` makes exactly 3 attempts, sleeps exactly twice between
consecutive attempts, and ends by re-raising the last failure (the spec's
`CoordinatorDiscoveryFailed`); and every run whatsoever makes at most 3
attempts. -/
theorem bounded_retry (b0 : Int × Broker) (bs : List (Int × Broker))
    (pick : Nat → Nat) (outcome : Nat → QueryOutcome) (e0 e1 e2 : Nat)
    (h0 : outcome 0 = QueryOutcome.fail e0)
    (h1 : outcome 1 = QueryOutcome.fail e1)
    (h2 : outcome 2 = QueryOutcome.fail e2) :
    ((getOffsetManager (b0 :: bs) pick outcome).targets.length = 3 ∧
      (getOffsetManager (b0 :: bs) pick outcome).sleeps.length = 2 ∧
      (getOffsetManager (b0 :: bs) pick outcome).result = GomResult.discoveryFailed e2)
    ∧ ∀ (brokers : List (Int × Broker)) (pick1 : Nat → Nat)
        (outcome1 : Nat → QueryOutcome),
        (getOffsetManager brokers pick1 outcome1).targets.length ≤ 3 := by
  constructor
  · rw [gom_shape_all_fail b0 bs pick outcome e0 e1 e2 h0 h1 h2]
    exact ⟨rfl, rfl, rfl⟩
  · intro brokers pick1 outcome1
    rcases brokers with _ | ⟨c0, cs⟩
    · simp [getOffsetManager]
    · exact gomLoop_targets_length (c0 :: cs) (chosenBroker c0 cs pick1) outcome1
        MAX_RETRIES 0 2

/-- C5 witness: two concrete brokers, all three queries failing with distinct
errors; the failure of the third attempt is the one propagated. -/
theorem bounded_retry_witness :
    ((getOffsetManager [(1, Broker.mk 1 "10.0.0.1" "9092" 0),
        (2, Broker.mk 2 "10.0.0.2" "9092" 1)] (fun k => k)
        (fun n => QueryOutcome.fail n)).targets.length = 3 ∧
      (getOffsetManager [(1, Broker.mk 1 "10.0.0.1" "9092" 0),
        (2, Broker.mk 2 "10.0.0.2" "9092" 1)] (fun k => k)
        (fun n => QueryOutcome.fail n)).sleeps.length = 2 ∧
      (getOffsetManager [(1, Broker.mk 1 "10.0.0.1" "9092" 0),
        (2, Broker.mk 2 "10.0.0.2" "9092" 1)] (fun k => k)
        (fun n => QueryOutcome.fail n)).result = GomResult.discoveryFailed 2)
    ∧ ∀ (brokers : List (Int × Broker)) (pick1 : Nat → Nat)
        (outcome1 : Nat → QueryOutcome),
        (getOffsetManager brokers pick1 outcome1).targets.length ≤ 3 :=
  bounded_retry (1, Broker.mk 1 "10.0.0.1" "9092" 0)
    [(2, Broker.mk 2 "10.0.0.2" "9092" 1)] (fun k => k)
    (fun n => QueryOutcome.fail n) 0 1 2 rfl rfl rfl

/-- C6: backoff progression.  The first sleep is the base duration 2; every
run's sleep sequence is a chain in which each sleep is the previous one
raised to its own power; and a run whose first two attempts fail sleeps
exactly `[2, 2 ^ 2]`.  (The source squares the backoff, `backoff = backoff **
2`; starting from 2 and with at most two sleeps ever performed, the slept
durations coincide with the self-exponentiation progression.) -/
theorem backoff_progression (brokers : List (Int × Broker)) (pick : Nat → Nat)
    (outcome : Nat → QueryOutcome) :
    (∀ s, (getOffsetManager brokers pick outcome).sleeps.head? = some s → s = 2)
    ∧ List.Chain' (fun a b => b = a ^ a) (getOffsetManager brokers pick outcome).sleeps
    ∧ (∀ e0 e1, brokers ≠ [] → outcome 0 = QueryOutcome.fail e0 →
        outcome 1 = QueryOutcome.fail e1 →
        (getOffsetManager brokers pick outcome).sleeps = [2, 2 ^ 2]) := by
  rcases brokers with _ | ⟨b0, bs⟩
  · refine ⟨?_, ?_, ?_⟩
    · intro s hs
      simp [getOffsetManager] at hs
    · simp [getOffsetManager]
    · intro e0 e1 hne _ _
      exact absurd rfl hne
  · rcases h0 : outcome 0 with e0 | cid0
    · rcases h1 : outcome 1 with e1 | cid1
      · rcases h2 : outcome 2 with e2 | cid2
        · rw [gom_shape_all_fail b0 bs pick outcome e0 e1 e2 h0 h1 h2]
          refine ⟨?_, ?_, ?_⟩
          · intro s hs
            simp at hs
            exact hs.symm
          · simp
          · intro f0 f1 _ _ _
            rfl
        · rw [gom_shape_fail_fail_succ b0 bs pick outcome e0 e1 cid2 h0 h1 h2]
          refine ⟨?_, ?_, ?_⟩
          · intro s hs
            simp at hs
            exact hs.symm
          · simp
          · intro f0 f1 _ _ _
            rfl
      · rw [gom_shape_fail_succ b0 bs pick outcome e0 cid1 h0 h1]
        refine ⟨?_, ?_, ?_⟩
        · intro s hs
          simp at hs
          exact hs.symm
        · simp
        · intro f0 f1 _ _ hf1
          exact QueryOutcome.noConfusion hf1
    · rw [gom_shape_succ0 b0 bs pick outcome cid0 h0]
      refine ⟨?_, ?_, ?_⟩
      · intro s hs
        simp at hs
      · simp
      · intro f0 f1 _ hf0 _
        exact QueryOutcome.noConfusion hf0

/-- C6 witness: the all-fail run on two concrete brokers sleeps exactly
`[2, 2 ^ 2]`. -/
theorem backoff_progression_witness :
    (getOffsetManager [(1, Broker.mk 1 "10.0.0.1" "9092" 0),
      (2, Broker.mk 2 "10.0.0.2" "9092" 1)] (fun k => k)
      (fun n => QueryOutcome.fail n)).sleeps = [2, 2 ^ 2] :=
  (backoff_progression [(1, Broker.mk 1 "10.0.0.1" "9092" 0),
      (2, Broker.mk 2 "10.0.0.2" "9092" 1)] (fun k => k)
      (fun n => QueryOutcome.fail n)).2.2 0 1 (by decide) rfl rfl

/-- The property claimed by the spec: every attempt — retries included —
targets the broker selected by a fresh uniform draw over the broker map made
at the time of that attempt (draw `i` selects key `pick i mod n`). -/
def perAttemptReselect (brokers : List (Int × Broker)) (pick : Nat → Nat)
    (outcome : Nat → QueryOutcome) : Prop :=
  ∀ (i : Nat) (h : i < (getOffsetManager brokers pick outcome).targets.length),
    (getOffsetManager brokers pick outcome).targets.get ⟨i, h⟩ =
      (brokers.map Prod.fst).getD (pick i % brokers.length) 0

/-- C7 counterexample: with brokers `{1, 2}`, the draw sequence `0, 1, 2, …`
and every query failing, per-attempt re-selection would send the second
attempt to broker 2 (the second draw selects key 2), but the code sends every
attempt to broker 1 — the broker is drawn once, before the loop. -/
theorem per_attempt_reselect_refuted :
    (getOffsetManager [(1, Broker.mk 1 "10.0.0.1" "9092" 0),
        (2, Broker.mk 2 "10.0.0.2" "9092" 1)] (fun k => k)
        (fun _ => QueryOutcome.fail 0)).targets = [1, 1, 1]
    ∧ (([(1, Broker.mk 1 "10.0.0.1" "9092" 0),
        (2, Broker.mk 2 "10.0.0.2" "9092" 1)].map Prod.fst).getD (1 % 2) 0 = 2)
    ∧ ¬ perAttemptReselect [(1, Broker.mk 1 "10.0.0.1" "9092" 0),
        (2, Broker.mk 2 "10.0.0.2" "9092" 1)] (fun k => k)
        (fun _ => QueryOutcome.fail 0) := by
  refine ⟨by decide, by decide, ?_⟩
  intro h
  have h1 := h 1 (by decide)
  revert h1
  decide

/-- C7 amended: the query target is drawn from the broker map once, before
the first attempt; every attempt, including each retry, is sent to that same
broker, and the run never consumes a second random draw (the trace depends on
`pick` only through `pick 0`). -/
theorem single_choice_all_attempts (b0 : Int × Broker) (bs : List (Int × Broker))
    (pick pick1 : Nat → Nat) (outcome : Nat → QueryOutcome)
    (hp : pick 0 = pick1 0) :
    getOffsetManager (b0 :: bs) pick outcome = getOffsetManager (b0 :: bs) pick1 outcome
    ∧ ∀ x ∈ (getOffsetManager (b0 :: bs) pick outcome).targets,
        x = (chosenBroker b0 bs pick).id := by
  constructor
  · show gomLoop (b0 :: bs) (chosenBroker b0 bs pick) outcome MAX_RETRIES 0 2 =
      gomLoop (b0 :: bs) (chosenBroker b0 bs pick1) outcome MAX_RETRIES 0 2
    rw [chosenBroker, chosenBroker, hp]
  · intro x hx
    exact gomLoop_targets_all (b0 :: bs) (chosenBroker b0 bs pick) outcome
      MAX_RETRIES 0 2 x hx

/-- C7 amended witness: on the concrete all-fail run the trace is unchanged
when every draw after the first is altered, and all three attempts target
broker 1. -/
theorem single_choice_all_attempts_witness :
    getOffsetManager [(1, Broker.mk 1 "10.0.0.1" "9092" 0),
        (2, Broker.mk 2 "10.0.0.2" "9092" 1)] (fun k => k)
        (fun _ => QueryOutcome.fail 0) =
      getOffsetManager [(1, Broker.mk 1 "10.0.0.1" "9092" 0),
        (2, Broker.mk 2 "10.0.0.2" "9092" 1)] (fun _ => 0)
        (fun _ => QueryOutcome.fail 0)
    ∧ ∀ x ∈ (getOffsetManager [(1, Broker.mk 1 "10.0.0.1" "9092" 0),
        (2, Broker.mk 2 "10.0.0.2" "9092" 1)] (fun k => k)
        (fun _ => QueryOutcome.fail 0)).targets,
        x = (chosenBroker (1, Broker.mk 1 "10.0.0.1" "9092" 0)
          [(2, Broker.mk 2 "10.0.0.2" "9092" 1)] (fun k => k)).id :=
  single_choice_all_attempts (1, Broker.mk 1 "10.0.0.1" "9092" 0)
    [(2, Broker.mk 2 "10.0.0.2" "9092" 1)] (fun k => k) (fun _ => 0)
    (fun _ => QueryOutcome.fail 0) rfl

/-- C8: coordinator lookup postcondition.  When the query of attempt `k`
succeeds (after `k` failures), the returned coordinator id is looked up in
the broker map: if present the stored handle itself is returned with no
further sleep, if absent the run ends with the coordinator-unknown error.
The broker map is read, never written (the embedding of `get_offset_manager`
takes it as a pure input). -/
theorem coordinator_lookup (b0 : Int × Broker) (bs : List (Int × Broker))
    (pick : Nat → Nat) (outcome : Nat → QueryOutcome) (k : Nat) (cid : Int)
    (hk : k < 3)
    (hprev : ∀ j, j < k → ∃ e, outcome j = QueryOutcome.fail e)
    (hsucc : outcome k = QueryOutcome.success cid) :
    (∀ co, findA cid (b0 :: bs) = some co →
      (getOffsetManager (b0 :: bs) pick outcome).result = GomResult.returned co)
    ∧ (findA cid (b0 :: bs) = none →
      (getOffsetManager (b0 :: bs) pick outcome).result =
        GomResult.coordinatorUnknown cid) := by
  have hres : (getOffsetManager (b0 :: bs) pick outcome).result =
      lookupResult (b0 :: bs) cid := by
    interval_cases k
    · rw [gom_shape_succ0 b0 bs pick outcome cid hsucc]
    · obtain ⟨e0, he0⟩ := hprev 0 (by decide)
      rw [gom_shape_fail_succ b0 bs pick outcome e0 cid he0 hsucc]
    · obtain ⟨e0, he0⟩ := hprev 0 (by decide)
      obtain ⟨e1, he1⟩ := hprev 1 (by decide)
      rw [gom_shape_fail_fail_succ b0 bs pick outcome e0 e1 cid he0 he1 hsucc]
  constructor
  · intro co hco
    rw [hres, lookupResult, hco]
  · intro hco
    rw [hres, lookupResult, hco]

/-- C8 witness: a first-attempt success returning coordinator id 2 yields
broker 2's stored handle; an unknown id 99 yields the coordinator-unknown
error. -/
theorem coordinator_lookup_witness :
    (getOffsetManager [(1, Broker.mk 1 "10.0.0.1" "9092" 0),
        (2, Broker.mk 2 "10.0.0.2" "9092" 1)] (fun _ => 0)
        (fun _ => QueryOutcome.success 2)).result =
      GomResult.returned (Broker.mk 2 "10.0.0.2" "9092" 1)
    ∧ (getOffsetManager [(1, Broker.mk 1 "10.0.0.1" "9092" 0),
        (2, Broker.mk 2 "10.0.0.2" "9092" 1)] (fun _ => 0)
        (fun _ => QueryOutcome.success 99)).result =
      GomResult.coordinatorUnknown 99 :=
  ⟨(coordinator_lookup (1, Broker.mk 1 "10.0.0.1" "9092" 0)
      [(2, Broker.mk 2 "10.0.0.2" "9092" 1)] (fun _ => 0)
      (fun _ => QueryOutcome.success 2) 0 2 (by decide)
      (fun j hj => absurd hj (by simp)) rfl).1
      (Broker.mk 2 "10.0.0.2" "9092" 1) (by decide),
    (coordinator_lookup (1, Broker.mk 1 "10.0.0.1" "9092" 0)
      [(2, Broker.mk 2 "10.0.0.2" "9092" 1)] (fun _ => 0)
      (fun _ => QueryOutcome.success 99) 0 99 (by decide)
      (fun j hj => absurd hj (by simp)) rfl).2 (by decide)⟩

/-- C10: calling `get_offset_manager` on an empty broker map fails inside
`random.choice` before any query attempt: no attempt targeted, no sleep, and
the error is the `IndexError` of choosing from an empty sequence — neither
the discovery-failed re-raise nor the coordinator-unknown error. -/
theorem empty_broker_map_choice (pick : Nat → Nat) (outcome : Nat → QueryOutcome) :
    getOffsetManager [] pick outcome = GomTrace.mk [] [] GomResult.choiceFromEmpty
    ∧ (∀ e, GomResult.choiceFromEmpty ≠ GomResult.discoveryFailed e)
    ∧ (∀ cid, GomResult.choiceFromEmpty ≠ GomResult.coordinatorUnknown cid) := by
  refine ⟨rfl, ?_, ?_⟩
  · intro e h
    exact GomResult.noConfusion h
  · intro cid h
    exact GomResult.noConfusion h

/-! ### Claim theorems: metadata fetch -/

/-- Splitting a character list never yields the empty list of groups. -/
theorem pySplitChars_ne_nil (sep : Char) (cs : List Char) :
    pySplitChars sep cs ≠ [] := by
  induction cs with
  | nil => simp [pySplitChars]
  | cons c rest ih =>
    rcases h : pySplitChars sep rest with _ | ⟨g, gs⟩
    · exact absurd h ih
    · by_cases hc : c = sep <;> simp [pySplitChars, h, hc]

/-- One candidate-loop iteration never produces the no-candidate error. -/
theorem tryCandidate_ne_unreachable (respond : Broker → Option Metadata)
    (tmpTag : Nat) (c : Candidate) :
    tryCandidate respond tmpTag c ≠ Except.error FetchErr.clusterUnreachable := by
  rcases c with b | s
  · rcases hr : respond b with _ | md <;> simp [tryCandidate, hr]
  · rcases hs : pySplitChars ':' s.data with _ | ⟨g1, gs⟩
    · simp [tryCandidate, hs]
    · rcases gs with _ | ⟨g2, gs2⟩
      · simp [tryCandidate, hs]
      · rcases gs2 with _ | ⟨g3, gs3⟩
        · rcases hr : respond (Broker.mk (-1) (String.mk g1) (String.mk g2) tmpTag)
              with _ | md <;> simp [tryCandidate, hs, hr]
        · simp [tryCandidate, hs]

/-- C9 counterexample: with no brokers and an empty seed string — no usable
seed entries — `_get_metadata` raises the `ValueError` from unpacking the
single empty-string candidate at `':'`, not the no-candidate
`ClusterUnreachable` error. -/
theorem empty_seed_not_unreachable :
    getMetadata [] "" (fun _ => none) 0 = Except.error (FetchErr.seedParseError "") ∧
    Except.error (α := Metadata) (FetchErr.seedParseError "") ≠
      Except.error FetchErr.clusterUnreachable := by
  constructor
  · rfl
  · intro h
    rw [Except.error.injEq] at h
    exact FetchErr.noConfusion h

/-- C9 amended: splitting any seed string yields at least one candidate (the
empty string parses to one malformed entry), so the candidate list is never
empty and the fetch never fails with `ClusterUnreachable`; with no brokers
and an empty seed string it fails with the seed-parse error instead,
whatever the network oracle does. -/
theorem fetch_never_cluster_unreachable :
    (∀ (brokers : List (Int × Broker)) (seedHosts : String)
      (respond : Broker → Option Metadata) (tmpTag : Nat),
      getMetadata brokers seedHosts respond tmpTag ≠
        Except.error FetchErr.clusterUnreachable)
    ∧ (∀ (respond : Broker → Option Metadata) (tmpTag : Nat),
      getMetadata [] "" respond tmpTag = Except.error (FetchErr.seedParseError "")) := by
  constructor
  · intro brokers seedHosts respond tmpTag
    rw [getMetadata]
    rcases hc : candidatesOf brokers seedHosts with _ | ⟨c, cs⟩
    · rcases brokers with _ | ⟨b0, bs⟩
      · rw [candidatesOf] at hc
        simp only [List.isEmpty_nil, if_pos] at hc
        rcases hsp : pySplitComma seedHosts with _ | ⟨s0, ss⟩
        · rw [pySplitComma] at hsp
          exact absurd (List.map_eq_nil_iff.mp hsp) (pySplitChars_ne_nil ',' _)
        · rw [hsp] at hc
          exact absurd hc (by simp)
      · rw [candidatesOf] at hc
        simp at hc
    · rw [fetchLoop]
      exact tryCandidate_ne_unreachable respond tmpTag c
  · intro respond tmpTag
    rfl

end Pykafka
